import Mathlib

/-!
Shallow embedding of `src/main.rs` of the `kobo_jp_dict` repository (a Kobo
Japanese dictionary builder), together with theorems settling the frozen
claims about its natural-language specification.

Strings are modelled as lists of Unicode scalar values (`Str := List Nat`).
Rust `String` ordering is byte-wise lexicographic over the UTF-8 encoding,
which coincides with lexicographic comparison of the scalar-value sequences;
Rust `str::len` is the UTF-8 byte length, modelled by `byteLen`.
-/

/-- A string, modelled as the list of its Unicode scalar values. -/
abbrev Str : Type := List Nat

/-- Converts a Lean string literal into the `Str` model. -/
def str (s : String) : Str := s.toList.map Char.toNat

/-- UTF-8 encoded length, in bytes, of one Unicode scalar value. -/
def utf8Len (c : Nat) : Nat :=
  if c < 0x80 then 1 else if c < 0x800 then 2 else if c < 0x10000 then 3 else 4

/-- Rust `str::len`: the UTF-8 byte length of a string. -/
def byteLen (s : Str) : Nat := (s.map utf8Len).sum

/-- Numerical difference between hiragana and katakana scalar values
(`KANA_DIFF`, main.rs line 691). -/
def KANA_DIFF : Nat := 0x30a1 - 0x3041

theorem kanaDiff_eq : KANA_DIFF = 0x60 := rfl

/-- `is_kana` (main.rs lines 693-702). -/
def is_kana (c : Nat) : Bool :=
  decide ((0x3041 ≤ c ∧ c ≤ 0x3096)
    ∨ (0x3099 ≤ c ∧ c ≤ 0x309c)
    ∨ (0x309d ≤ c ∧ c ≤ 0x309e)
    ∨ (0x30a1 ≤ c ∧ c ≤ 0x30f6)
    ∨ c = 0x30fc
    ∨ (0x30fd ≤ c ∧ c ≤ 0x30fe))

/-- `is_hiragana` (main.rs lines 704-712). -/
def is_hiragana (c : Nat) : Bool :=
  decide ((0x3041 ≤ c ∧ c ≤ 0x3096)
    ∨ (0x3099 ≤ c ∧ c ≤ 0x309c)
    ∨ (0x309d ≤ c ∧ c ≤ 0x309e)
    ∨ c = 0x30fc
    ∨ (0x30fd ≤ c ∧ c ≤ 0x30fe))

/-- The set of characters moved by `hiragana_to_katakana` (main.rs line 731). -/
def hiraganaConvertible (c : Nat) : Prop :=
  (0x3041 ≤ c ∧ c ≤ 0x3096) ∨ (0x309d ≤ c ∧ c ≤ 0x309e)

/-- The set of characters moved by `katakana_to_hiragana` (main.rs line 746). -/
def katakanaConvertible (c : Nat) : Prop :=
  (0x30a1 ≤ c ∧ c ≤ 0x30f6) ∨ (0x30fd ≤ c ∧ c ≤ 0x30fe)

instance (c : Nat) : Decidable (hiraganaConvertible c) := by
  unfold hiraganaConvertible; infer_instance

instance (c : Nat) : Decidable (katakanaConvertible c) := by
  unfold katakanaConvertible; infer_instance

/-- Per-character action of `hiragana_to_katakana` (main.rs lines 726-739).
For characters in the convertible ranges, `c + KANA_DIFF` is always a valid
scalar value, so Rust's `char::try_from(..).unwrap_or(ch)` never takes the
fallback; outside the ranges the character is returned unchanged. -/
def h2kChar (c : Nat) : Nat :=
  if hiraganaConvertible c then c + KANA_DIFF else c

/-- `hiragana_to_katakana` (main.rs lines 726-739). -/
def hiragana_to_katakana (s : Str) : Str := s.map h2kChar

/-- Per-character action of `katakana_to_hiragana` (main.rs lines 741-754). -/
def k2hChar (c : Nat) : Nat :=
  if katakanaConvertible c then c - KANA_DIFF else c

/-- `katakana_to_hiragana` (main.rs lines 741-754). -/
def katakana_to_hiragana (s : Str) : Str := s.map k2hChar

/-- `strip_non_kana` (main.rs lines 716-724). -/
def strip_non_kana (s : Str) : Str := s.filter is_kana

/-- `is_all_kana` (main.rs lines 756-762): the fold with `&=` is `List.all`. -/
def is_all_kana (s : Str) : Bool := s.all is_kana

/-- `is_all_hiragana` (main.rs lines 764-770). -/
def is_all_hiragana (s : Str) : Bool := s.all is_hiragana

theorem h2kChar_k2hChar (c : Nat) (h : ¬ hiraganaConvertible c) :
    h2kChar (k2hChar c) = c := by
  unfold hiraganaConvertible at h
  by_cases hk : katakanaConvertible c
  · have hk' := hk
    unfold katakanaConvertible at hk'
    rw [k2hChar, if_pos hk, kanaDiff_eq, h2kChar,
      if_pos (show hiraganaConvertible (c - 0x60) by unfold hiraganaConvertible; omega),
      kanaDiff_eq]
    omega
  · rw [k2hChar, if_neg hk, h2kChar, if_neg (by unfold hiraganaConvertible; exact h)]

theorem k2hChar_h2kChar (c : Nat) (h : ¬ katakanaConvertible c) :
    k2hChar (h2kChar c) = c := by
  unfold katakanaConvertible at h
  by_cases hh : hiraganaConvertible c
  · have hh' := hh
    unfold hiraganaConvertible at hh'
    rw [h2kChar, if_pos hh, kanaDiff_eq, k2hChar,
      if_pos (show katakanaConvertible (c + 0x60) by unfold katakanaConvertible; omega),
      kanaDiff_eq]
    omega
  · rw [h2kChar, if_neg hh, k2hChar, if_neg (by unfold katakanaConvertible; exact h)]

theorem h2kChar_idem (c : Nat) : h2kChar (h2kChar c) = h2kChar c := by
  by_cases hh : hiraganaConvertible c
  · have hh' := hh
    unfold hiraganaConvertible at hh'
    have h1 : h2kChar c = c + 0x60 := by rw [h2kChar, if_pos hh, kanaDiff_eq]
    rw [h1, h2kChar,
      if_neg (show ¬ hiraganaConvertible (c + 0x60) by unfold hiraganaConvertible; omega)]
  · have h1 : h2kChar c = c := by rw [h2kChar, if_neg hh]
    rw [h1, h1]

theorem k2hChar_idem (c : Nat) : k2hChar (k2hChar c) = k2hChar c := by
  by_cases hk : katakanaConvertible c
  · have hk' := hk
    unfold katakanaConvertible at hk'
    have h1 : k2hChar c = c - 0x60 := by rw [k2hChar, if_pos hk, kanaDiff_eq]
    rw [h1, k2hChar,
      if_neg (show ¬ katakanaConvertible (c - 0x60) by unfold katakanaConvertible; omega)]
  · have h1 : k2hChar c = c := by rw [k2hChar, if_neg hk]
    rw [h1, h1]

theorem is_kana_h2kChar (c : Nat) : is_kana (h2kChar c) = is_kana c := by
  by_cases hh : hiraganaConvertible c
  · have hh' := hh
    unfold hiraganaConvertible at hh'
    rw [h2kChar, if_pos hh, kanaDiff_eq]
    simp only [is_kana, decide_eq_decide]
    omega
  · rw [h2kChar, if_neg hh]

theorem hiragana_to_katakana_idem (t : Str) :
    hiragana_to_katakana (hiragana_to_katakana t) = hiragana_to_katakana t := by
  unfold hiragana_to_katakana
  rw [List.map_map]
  exact List.map_congr_left fun c _ => h2kChar_idem c

theorem katakana_to_hiragana_idem (t : Str) :
    katakana_to_hiragana (katakana_to_hiragana t) = katakana_to_hiragana t := by
  unfold katakana_to_hiragana
  rw [List.map_map]
  exact List.map_congr_left fun c _ => k2hChar_idem c

/-- C5: converting to hiragana and then to katakana returns the original text
whenever the text was originally katakana (i.e. each character is a
convertible katakana character or lies outside both convertible ranges), and
symmetrically; each conversion is idempotent on any text; characters outside
the convertible ranges pass through both conversions unchanged. -/
theorem claim5_kana_conversion_roundtrip :
    (∀ t : Str,
      (∀ c ∈ t, katakanaConvertible c ∨ (¬ hiraganaConvertible c ∧ ¬ katakanaConvertible c)) →
      hiragana_to_katakana (katakana_to_hiragana t) = t)
  ∧ (∀ t : Str,
      (∀ c ∈ t, hiraganaConvertible c ∨ (¬ hiraganaConvertible c ∧ ¬ katakanaConvertible c)) →
      katakana_to_hiragana (hiragana_to_katakana t) = t)
  ∧ (∀ t : Str, hiragana_to_katakana (hiragana_to_katakana t) = hiragana_to_katakana t)
  ∧ (∀ t : Str, katakana_to_hiragana (katakana_to_hiragana t) = katakana_to_hiragana t)
  ∧ (∀ t : Str, (∀ c ∈ t, ¬ hiraganaConvertible c ∧ ¬ katakanaConvertible c) →
      hiragana_to_katakana t = t ∧ katakana_to_hiragana t = t) := by
  refine ⟨?_, ?_, hiragana_to_katakana_idem, katakana_to_hiragana_idem, ?_⟩
  · intro t ht
    unfold hiragana_to_katakana katakana_to_hiragana
    rw [List.map_map]
    have : ∀ c ∈ t, (h2kChar ∘ k2hChar) c = id c := by
      intro c hc
      rcases ht c hc with hk | ⟨hnh, _⟩
      · have hk' := hk
        unfold katakanaConvertible at hk'
        exact h2kChar_k2hChar c (by unfold hiraganaConvertible; omega)
      · exact h2kChar_k2hChar c hnh
    rw [List.map_congr_left this, List.map_id]
  · intro t ht
    unfold hiragana_to_katakana katakana_to_hiragana
    rw [List.map_map]
    have : ∀ c ∈ t, (k2hChar ∘ h2kChar) c = id c := by
      intro c hc
      rcases ht c hc with hh | ⟨_, hnk⟩
      · have hh' := hh
        unfold hiraganaConvertible at hh'
        exact k2hChar_h2kChar c (by unfold katakanaConvertible; omega)
      · exact k2hChar_h2kChar c hnk
    rw [List.map_congr_left this, List.map_id]
  · intro t ht
    constructor
    · unfold hiragana_to_katakana
      have : ∀ c ∈ t, h2kChar c = id c := by
        intro c hc
        exact if_neg (ht c hc).1
      rw [List.map_congr_left this, List.map_id]
    · unfold katakana_to_hiragana
      have : ∀ c ∈ t, k2hChar c = id c := by
        intro c hc
        exact if_neg (ht c hc).2
      rw [List.map_congr_left this, List.map_id]

/-- Witness for C5 at concrete inputs. -/
theorem claim5_kana_conversion_roundtrip_witness :
    hiragana_to_katakana (katakana_to_hiragana (str "コーヒーX")) = str "コーヒーX"
  ∧ katakana_to_hiragana (hiragana_to_katakana (str "たべる漢")) = str "たべる漢"
  ∧ hiragana_to_katakana (str "A1。") = str "A1。" := by
  refine ⟨?_, ?_, ?_⟩
  · exact claim5_kana_conversion_roundtrip.1 _ (by decide)
  · exact claim5_kana_conversion_roundtrip.2.1 _ (by decide)
  · exact (claim5_kana_conversion_roundtrip.2.2.2.2 _ (by decide)).1

/-- `jmdict::ConjugationClass` (defined in the crate's `jmdict` module; the
variants are those referenced by `main.rs`, with `Other` standing for every
remaining variant, all of which `main.rs` reaches only through catch-all
match arms). -/
inductive ConjugationClass where
  | IchidanVerb
  | GodanVerbU
  | GodanVerbTsu
  | GodanVerbRu
  | GodanVerbKu
  | GodanVerbGu
  | GodanVerbNu
  | GodanVerbBu
  | GodanVerbMu
  | GodanVerbSu
  | GodanVerbHu
  | IkuVerb
  | KuruVerb
  | SuruVerb
  | SuruVerbSC
  | KureruVerb
  | AruVerb
  | SharuVerb
  | IrregularVerb
  | IAdjective
  | IrregularIAdjective
  | Other
  deriving DecidableEq

/-- `jmdict::PartOfSpeech`; `main.rs` distinguishes only `Verb` and
`Adjective`, treating every other variant uniformly. -/
inductive PartOfSpeech where
  | Verb
  | Adjective
  | Expression
  | Other
  deriving DecidableEq

/-- `jmdict::WordEntry` as used by `main.rs` (the spec's Source Record
Model): headword writings, readings (first is canonical), gloss strings,
part of speech, conjugation class, the usually-written-in-kana flag,
free-form tags, and an integer priority. -/
structure WordEntry where
  writings : List Str
  readings : List Str
  definitions : List Str
  pos : PartOfSpeech
  conj : ConjugationClass
  usually_kana : Bool
  tags : List Str
  priority : Nat
  deriving DecidableEq

/-- `yomichan::TermEntry` as used by `main.rs`. -/
structure TermEntry where
  writing : Str
  reading : Str
  definitions : List Str
  dict_name : Str
  tags : List Str
  deriving DecidableEq

/-- `yomichan::KanjiEntry` as used by `main.rs`. -/
structure KanjiEntry where
  kanji : Str
  meanings : List Str
  onyomi : List Str
  kunyomi : List Str
  deriving DecidableEq

/-- `kobo_ja::Entry` as used by `main.rs`. -/
structure KoboJaEntry where
  key : Str
  kana : Str
  definition : Str
  deriving DecidableEq

/-- `kobo::Entry`: an output entry, a list of (key, priority) pairs plus the
rendered definition markup. -/
structure KoboEntry where
  keys : List (Str × Nat)
  definition : Str
  deriving DecidableEq

/-- Ordered insertion for a Boolean preorder; folding it is a stable
insertion sort, which agrees with Rust's stable `sort`/`sort_by_key` for
the same total preorder. -/
def orderedInsertB {α : Type} (le : α → α → Bool) (a : α) : List α → List α
  | [] => [a]
  | b :: l => if le a b then a :: b :: l else b :: orderedInsertB le a l

/-- Stable insertion sort, modelling Rust's stable `sort_by_key`. -/
def insertionSortB {α : Type} (le : α → α → Bool) : List α → List α
  | [] => []
  | a :: l => orderedInsertB le a (insertionSortB le l)

/-- Rust `Vec::dedup`: removes consecutive equal elements. -/
def rustDedup {α : Type} [DecidableEq α] : List α → List α
  | [] => []
  | [a] => [a]
  | a :: b :: l => if a = b then rustDedup (b :: l) else a :: rustDedup (b :: l)

theorem mem_orderedInsertB {α : Type} (le : α → α → Bool) (a x : α) :
    ∀ l : List α, x ∈ orderedInsertB le a l ↔ x = a ∨ x ∈ l
  | [] => by simp [orderedInsertB]
  | b :: l => by
    cases h : le a b
    · simp only [orderedInsertB, h, Bool.false_eq_true, if_false, List.mem_cons,
        mem_orderedInsertB le a x l]
      tauto
    · simp only [orderedInsertB, h, if_true, List.mem_cons]

theorem perm_orderedInsertB {α : Type} (le : α → α → Bool) (a : α) :
    ∀ l : List α, (orderedInsertB le a l).Perm (a :: l)
  | [] => List.Perm.refl _
  | b :: l => by
    cases h : le a b
    · simp only [orderedInsertB, h, Bool.false_eq_true, if_false]
      exact ((perm_orderedInsertB le a l).cons b).trans (List.Perm.swap a b l)
    · simp only [orderedInsertB, h, if_true]
      exact List.Perm.refl _

theorem perm_insertionSortB {α : Type} (le : α → α → Bool) :
    ∀ l : List α, (insertionSortB le l).Perm l
  | [] => List.Perm.refl _
  | a :: l =>
    (perm_orderedInsertB le a (insertionSortB le l)).trans
      ((perm_insertionSortB le l).cons a)

theorem mem_insertionSortB {α : Type} (le : α → α → Bool) (x : α) (l : List α) :
    x ∈ insertionSortB le l ↔ x ∈ l :=
  (perm_insertionSortB le l).mem_iff

theorem pairwise_orderedInsertB {α : Type} (le : α → α → Bool)
    (htot : ∀ a b, le a b = true ∨ le b a = true)
    (htrans : ∀ a b c, le a b = true → le b c = true → le a c = true)
    (a : α) :
    ∀ l : List α, l.Pairwise (fun x y => le x y = true) →
      (orderedInsertB le a l).Pairwise (fun x y => le x y = true)
  | [], _ => by simp [orderedInsertB]
  | b :: l, h => by
    rcases List.pairwise_cons.mp h with ⟨hb, hl⟩
    cases hab : le a b
    · have hba : le b a = true := by
        rcases htot a b with h' | h'
        · rw [h'] at hab; cases hab
        · exact h'
      simp only [orderedInsertB, hab, Bool.false_eq_true, if_false]
      refine List.pairwise_cons.mpr ⟨?_, pairwise_orderedInsertB le htot htrans a l hl⟩
      intro y hy
      rcases (mem_orderedInsertB le a y l).mp hy with rfl | hy'
      · exact hba
      · exact hb y hy'
    · simp only [orderedInsertB, hab, if_true]
      refine List.pairwise_cons.mpr ⟨?_, h⟩
      intro y hy
      rcases List.mem_cons.mp hy with rfl | hy'
      · exact hab
      · exact htrans a b y hab (hb y hy')

theorem pairwise_insertionSortB {α : Type} (le : α → α → Bool)
    (htot : ∀ a b, le a b = true ∨ le b a = true)
    (htrans : ∀ a b c, le a b = true → le b c = true → le a c = true) :
    ∀ l : List α, (insertionSortB le l).Pairwise (fun x y => le x y = true)
  | [] => List.Pairwise.nil
  | a :: l =>
    pairwise_orderedInsertB le htot htrans a (insertionSortB le l)
      (pairwise_insertionSortB le htot htrans l)

theorem mem_rustDedup {α : Type} [DecidableEq α] (x : α) :
    ∀ l : List α, x ∈ rustDedup l ↔ x ∈ l
  | [] => Iff.rfl
  | [a] => Iff.rfl
  | a :: b :: l => by
    by_cases h : a = b
    · subst h
      simp only [rustDedup, if_true, mem_rustDedup x (a :: l), List.mem_cons]
      tauto
    · simp only [rustDedup, h, if_false, List.mem_cons, mem_rustDedup x (b :: l)]

theorem pairwise_ne_rustDedup {α : Type} [DecidableEq α] (le : α → α → Bool)
    (hanti : ∀ a b, le a b = true → le b a = true → a = b) :
    ∀ l : List α, l.Pairwise (fun x y => le x y = true) →
      (rustDedup l).Pairwise (fun x y => le x y = true ∧ x ≠ y)
  | [], _ => List.Pairwise.nil
  | [a], _ => by simp [rustDedup]
  | a :: b :: l, h => by
    rcases List.pairwise_cons.mp h with ⟨ha, htail⟩
    by_cases hab : a = b
    · subst hab
      simp only [rustDedup, if_true]
      exact pairwise_ne_rustDedup le hanti (a :: l) htail
    · simp only [rustDedup, hab, if_false]
      refine List.pairwise_cons.mpr
        ⟨?_, pairwise_ne_rustDedup le hanti (b :: l) htail⟩
      intro y hy
      have hyl : y ∈ b :: l := (mem_rustDedup y (b :: l)).mp hy
      refine ⟨ha y hyl, ?_⟩
      rcases List.mem_cons.mp hyl with rfl | hy'
      · exact hab
      · intro hne
        subst hne
        exact hab (hanti a b (ha b (List.mem_cons_self b l))
          ((List.pairwise_cons.mp htail).1 a hy'))

/-- Lexicographic `≤` on scalar-value sequences: Rust `String` ordering
(byte-wise lexicographic over UTF-8, which coincides with scalar-value
order). -/
def strLeB : Str → Str → Bool
  | [], _ => true
  | _ :: _, [] => false
  | a :: s, b :: t => if a < b then true else if b < a then false else strLeB s t

theorem strLeB_total : ∀ s t : Str, strLeB s t = true ∨ strLeB t s = true
  | [], t => by
    left
    rfl
  | a :: s, [] => by
    right
    rfl
  | a :: s, b :: t => by
    rcases Nat.lt_trichotomy a b with h | h | h
    · left
      simp [strLeB, h]
    · subst h
      rcases strLeB_total s t with h' | h'
      · left
        simp [strLeB, h']
      · right
        simp [strLeB, h']
    · right
      simp [strLeB, h]

theorem strLeB_cons_iff (a b : Nat) (s t : Str) :
    strLeB (a :: s) (b :: t) = true ↔ a < b ∨ (a = b ∧ strLeB s t = true) := by
  simp only [strLeB]
  split_ifs with h1 h2
  · exact iff_of_true rfl (Or.inl h1)
  · refine iff_of_false (by simp) ?_
    intro h
    rcases h with h | ⟨h, _⟩ <;> omega
  · have hab : a = b := by omega
    subst hab
    constructor
    · intro h
      exact Or.inr ⟨rfl, h⟩
    · intro h
      rcases h with h | ⟨_, h⟩
      · omega
      · exact h

theorem strLeB_trans : ∀ s t u : Str,
    strLeB s t = true → strLeB t u = true → strLeB s u = true
  | [], _, _, _, _ => rfl
  | a :: s, [], u, h, _ => by cases h
  | a :: s, b :: t, [], _, h => by cases h
  | a :: s, b :: t, c :: u, h1, h2 => by
    rw [strLeB_cons_iff] at h1 h2 ⊢
    rcases h1 with h1 | ⟨rfl, h1⟩
    · rcases h2 with h2 | ⟨rfl, h2⟩
      · exact Or.inl (Nat.lt_trans h1 h2)
      · exact Or.inl h1
    · rcases h2 with h2 | ⟨rfl, h2⟩
      · exact Or.inl h2
      · exact Or.inr ⟨rfl, strLeB_trans s t u h1 h2⟩

theorem strLeB_antisymm : ∀ s t : Str,
    strLeB s t = true → strLeB t s = true → s = t
  | [], [], _, _ => rfl
  | [], b :: t, _, h => by cases h
  | a :: s, [], h, _ => by cases h
  | a :: s, b :: t, h1, h2 => by
    rw [strLeB_cons_iff] at h1 h2
    rcases h1 with h1 | ⟨rfl, h1⟩
    · rcases h2 with h2 | ⟨h2, _⟩ <;> omega
    · rcases h2 with h2 | ⟨_, h2⟩
      · omega
      · rw [strLeB_antisymm s t h1 h2]

/-- The Rust sort key of `generate_lookup_keys` (main.rs line 590):
`(priority, byte length, string)` compared lexicographically. -/
def keyLeB (a b : Str × Nat) : Bool :=
  if a.2 < b.2 then true
  else if b.2 < a.2 then false
  else if byteLen a.1 < byteLen b.1 then true
  else if byteLen b.1 < byteLen a.1 then false
  else strLeB a.1 b.1

theorem keyLeB_iff (a b : Str × Nat) :
    keyLeB a b = true ↔
      a.2 < b.2 ∨ (a.2 = b.2 ∧ (byteLen a.1 < byteLen b.1
        ∨ (byteLen a.1 = byteLen b.1 ∧ strLeB a.1 b.1 = true))) := by
  unfold keyLeB
  split_ifs with h1 h2 h3 h4
  · exact iff_of_true rfl (Or.inl h1)
  · refine iff_of_false (by simp) ?_
    intro h
    rcases h with h | ⟨h, _⟩ <;> omega
  · exact iff_of_true rfl (Or.inr ⟨by omega, Or.inl h3⟩)
  · refine iff_of_false (by simp) ?_
    intro h
    rcases h with h | ⟨_, h | ⟨h, _⟩⟩ <;> omega
  · constructor
    · intro h
      exact Or.inr ⟨by omega, Or.inr ⟨by omega, h⟩⟩
    · intro h
      rcases h with h | ⟨_, h | ⟨_, h⟩⟩
      · omega
      · omega
      · exact h

theorem keyLeB_total (a b : Str × Nat) : keyLeB a b = true ∨ keyLeB b a = true := by
  rw [keyLeB_iff, keyLeB_iff]
  rcases Nat.lt_trichotomy a.2 b.2 with h | h | h
  · exact Or.inl (Or.inl h)
  · rcases Nat.lt_trichotomy (byteLen a.1) (byteLen b.1) with h' | h' | h'
    · exact Or.inl (Or.inr ⟨h, Or.inl h'⟩)
    · rcases strLeB_total a.1 b.1 with hs | hs
      · exact Or.inl (Or.inr ⟨h, Or.inr ⟨h', hs⟩⟩)
      · exact Or.inr (Or.inr ⟨h.symm, Or.inr ⟨h'.symm, hs⟩⟩)
    · exact Or.inr (Or.inr ⟨h.symm, Or.inl h'⟩)
  · exact Or.inr (Or.inl h)

theorem keyLeB_trans (a b c : Str × Nat) :
    keyLeB a b = true → keyLeB b c = true → keyLeB a c = true := by
  rw [keyLeB_iff, keyLeB_iff, keyLeB_iff]
  intro h1 h2
  rcases h1 with h1 | ⟨e1, h1⟩
  · rcases h2 with h2 | ⟨e2, _⟩
    · exact Or.inl (by omega)
    · exact Or.inl (by omega)
  · rcases h2 with h2 | ⟨e2, h2⟩
    · exact Or.inl (by omega)
    · refine Or.inr ⟨by omega, ?_⟩
      rcases h1 with h1 | ⟨f1, h1⟩
      · rcases h2 with h2 | ⟨f2, _⟩
        · exact Or.inl (by omega)
        · exact Or.inl (by omega)
      · rcases h2 with h2 | ⟨f2, h2⟩
        · exact Or.inl (by omega)
        · exact Or.inr ⟨by omega, strLeB_trans _ _ _ h1 h2⟩

theorem keyLeB_antisymm (a b : Str × Nat) :
    keyLeB a b = true → keyLeB b a = true → a = b := by
  rw [keyLeB_iff, keyLeB_iff]
  intro h1 h2
  have e : a.2 = b.2 := by
    rcases h1 with h1 | ⟨e1, _⟩ <;> rcases h2 with h2 | ⟨e2, _⟩ <;> omega
  rcases h1 with h1 | ⟨_, h1⟩
  · omega
  · rcases h2 with h2 | ⟨_, h2⟩
    · omega
    · have f : byteLen a.1 = byteLen b.1 := by
        rcases h1 with h1 | ⟨f1, _⟩ <;> rcases h2 with h2 | ⟨f2, _⟩ <;> omega
      rcases h1 with h1 | ⟨_, h1⟩
      · omega
      · rcases h2 with h2 | ⟨_, h2⟩
        · omega
        · exact Prod.ext (strLeB_antisymm _ _ h1 h2) e

/-- One `keys.push` group inside `end_replace_push` (main.rs lines 444-447
and 458-461): for an all-kana form its katakana twin is pushed first, then
the form itself; a non-kana form is pushed alone. -/
def pushKana (v : Str) (pr : Nat) : List (Str × Nat) :=
  (if is_all_kana v then [(hiragana_to_katakana v, pr)] else []) ++ [(v, pr)]

/-- The `end_replace_push` closure of `generate_lookup_keys` (main.rs lines
431-464).  `uk` and `p` are the captured `jm_entry.usually_kana` and
`jm_entry.priority`.  The gate mirrors
`trail.len() > 0 && word.len() >= trail.len() && word.ends_with(trail)`
(byte lengths); when `trail` is a suffix, the byte-level `truncate` keeps
exactly the first `word.length - trail.length` characters.
`erpPriority` is the closure's `priority` computation (main.rs lines
434-438). -/
def erpPriority (uk : Bool) (p : Nat) (word : Str) : Nat :=
  if is_all_kana word && uk then p / 8 else p

def end_replace_push (uk : Bool) (p : Nat) (word trail : Str)
    (endings : List Str) : List (Str × Nat) :=
  pushKana word (erpPriority uk p word) ++
    (if 0 < byteLen trail ∧ byteLen trail ≤ byteLen word ∧ trail.isSuffixOf word = true
      then
        (endings.map (fun e =>
          pushKana (word.take (word.length - trail.length) ++ e)
            (erpPriority uk p word))).flatten
      else [])

/-- The per-conjugation-class dispatch of `generate_lookup_keys` (main.rs
lines 478-588), applied to one base form. -/
def ruleKeys (uk : Bool) (p : Nat) (conj : ConjugationClass) (word : Str) :
    List (Str × Nat) :=
  match conj with
  | ConjugationClass.IchidanVerb =>
      end_replace_push uk p word (str "る")
        [str "", str "られ", str "させ", str "ろ", str "て", str "た"]
  | ConjugationClass.GodanVerbU =>
      end_replace_push uk p word (str "う")
        [str "わ", str "い", str "え", str "お", str "って", str "った"]
  | ConjugationClass.GodanVerbTsu =>
      end_replace_push uk p word (str "つ")
        [str "た", str "ち", str "て", str "と", str "って", str "った"]
  | ConjugationClass.GodanVerbRu =>
      end_replace_push uk p word (str "ち")
        [str "ら", str "り", str "れ", str "ろ", str "って", str "った"]
  | ConjugationClass.GodanVerbKu =>
      end_replace_push uk p word (str "く")
        [str "か", str "き", str "け", str "こ", str "いて", str "いた"]
  | ConjugationClass.GodanVerbGu =>
      end_replace_push uk p word (str "ぐ")
        [str "が", str "ぎ", str "げ", str "ご", str "いで", str "いだ"]
  | ConjugationClass.GodanVerbNu =>
      end_replace_push uk p word (str "ぬ")
        [str "な", str "に", str "ね", str "の", str "んで", str "んだ"]
  | ConjugationClass.GodanVerbBu =>
      end_replace_push uk p word (str "ぶ")
        [str "ば", str "び", str "べ", str "ぼ", str "んで", str "んだ"]
  | ConjugationClass.GodanVerbMu =>
      end_replace_push uk p word (str "む")
        [str "ま", str "み", str "め", str "も", str "んで", str "んだ"]
  | ConjugationClass.GodanVerbSu =>
      end_replace_push uk p word (str "す")
        [str "さ", str "し", str "せ", str "そ", str "して", str "した"]
  | ConjugationClass.IkuVerb =>
      end_replace_push uk p word (str "く")
        [str "か", str "き", str "け", str "こ", str "って", str "った"]
  | ConjugationClass.KuruVerb =>
      end_replace_push uk p word (str "くる")
        [str "こない", str "こなかった", str "こなくて", str "きて", str "きた",
         str "こられ", str "こさせ", str "こい", str "きます", str "きません",
         str "きました"] ++
      end_replace_push uk p word (str "来る")
        [str "来ない", str "来なかった", str "来なくて", str "来て", str "来た",
         str "来られ", str "来させ", str "来い", str "来ます", str "来ません",
         str "来ました"]
  | ConjugationClass.SuruVerb =>
      end_replace_push uk p word (str "する")
        [str "しな", str "しろ", str "させ", str "され", str "でき", str "した",
         str "して", str "します", str "しません"]
  | ConjugationClass.IAdjective =>
      end_replace_push uk p word (str "い")
        [str "", str "く", str "け", str "かった", str "かって"]
  | _ => end_replace_push uk p word (str "") []

/-- The deduplicated, sorted base-form list of `generate_lookup_keys`
(main.rs lines 466-476): writings chained with the readings (all of them if
`usually_kana`, else only the first), then `sort` and `dedup`. -/
def wordForms (e : WordEntry) : List Str :=
  rustDedup (insertionSortB strLeB
    (e.writings ++ (if e.usually_kana then e.readings else e.readings.take 1)))

/-- `generate_lookup_keys` (main.rs lines 426-593). -/
def generate_lookup_keys (e : WordEntry) : List (Str × Nat) :=
  rustDedup (insertionSortB keyLeB
    ((wordForms e).flatMap (ruleKeys e.usually_kana e.priority e.conj)))

example : generate_lookup_keys
    ⟨[str "食べる"], [str "たべる"], [], PartOfSpeech.Verb,
      ConjugationClass.IchidanVerb, false, [], 2⟩ =
    [(str "たべ", 2), (str "タベ", 2), (str "食べ", 2), (str "たべた", 2),
     (str "たべて", 2), (str "たべる", 2), (str "たべろ", 2), (str "タベタ", 2),
     (str "タベテ", 2), (str "タベル", 2), (str "タベロ", 2), (str "食べた", 2),
     (str "食べて", 2), (str "食べる", 2), (str "食べろ", 2), (str "たべさせ", 2),
     (str "たべられ", 2), (str "タベサセ", 2), (str "タベラレ", 2),
     (str "食べさせ", 2), (str "食べられ", 2)] := by decide

theorem mem_pushKana (v : Str) (pr : Nat) (k : Str × Nat) :
    k ∈ pushKana v pr ↔
      (is_all_kana v = true ∧ k = (hiragana_to_katakana v, pr)) ∨ k = (v, pr) := by
  unfold pushKana
  cases h : is_all_kana v <;> simp [h]

theorem mem_end_replace_push (uk : Bool) (p : Nat) (word trail : Str)
    (endings : List Str) (k : Str × Nat) :
    k ∈ end_replace_push uk p word trail endings ↔
      k ∈ pushKana word (erpPriority uk p word) ∨
        ((0 < byteLen trail ∧ byteLen trail ≤ byteLen word ∧
            trail.isSuffixOf word = true) ∧
          ∃ en ∈ endings,
            k ∈ pushKana (word.take (word.length - trail.length) ++ en)
              (erpPriority uk p word)) := by
  unfold end_replace_push
  rw [List.mem_append]
  apply or_congr Iff.rfl
  split_ifs with hgate
  · simp only [List.mem_flatten, List.mem_map]
    constructor
    · intro h
      rcases h with ⟨l, ⟨en, hen, rfl⟩, hk⟩
      exact ⟨hgate, en, hen, hk⟩
    · intro h
      rcases h with ⟨_, en, hen, hk⟩
      exact ⟨_, ⟨en, hen, rfl⟩, hk⟩
  · simp only [List.not_mem_nil, false_iff]
    intro h
    exact hgate h.1

theorem mem_wordForms (e : WordEntry) (w : Str) :
    w ∈ wordForms e ↔
      w ∈ e.writings ++ (if e.usually_kana then e.readings else e.readings.take 1) := by
  unfold wordForms
  rw [mem_rustDedup, mem_insertionSortB]

theorem mem_generate_lookup_keys (e : WordEntry) (k : Str × Nat) :
    k ∈ generate_lookup_keys e ↔
      ∃ w ∈ wordForms e, k ∈ ruleKeys e.usually_kana e.priority e.conj w := by
  unfold generate_lookup_keys
  rw [mem_rustDedup, mem_insertionSortB, List.mem_flatMap]

theorem is_all_kana_h2k (v : Str) :
    is_all_kana (hiragana_to_katakana v) = is_all_kana v := by
  unfold is_all_kana hiragana_to_katakana
  rw [List.all_map]
  induction v with
  | nil => rfl
  | cons c t ih => simp only [List.all_cons, Function.comp_apply, is_kana_h2kChar, ih]

/-- C9: the key list returned by `generate_lookup_keys` contains no two
identical (string, priority) pairs and is sorted ascending by the
(priority, byte length, lexicographic string) key. -/
theorem claim9_keys_nodup_sorted (e : WordEntry) :
    (generate_lookup_keys e).Nodup
  ∧ (generate_lookup_keys e).Pairwise (fun a b => keyLeB a b = true) := by
  have h : (generate_lookup_keys e).Pairwise
      (fun a b => keyLeB a b = true ∧ a ≠ b) := by
    unfold generate_lookup_keys
    exact pairwise_ne_rustDedup keyLeB keyLeB_antisymm _
      (pairwise_insertionSortB keyLeB keyLeB_total keyLeB_trans _)
  exact ⟨h.imp (fun hx => hx.2), h.imp (fun hx => hx.1)⟩

theorem is_all_kana_append (u v : Str) :
    is_all_kana (u ++ v) = (is_all_kana u && is_all_kana v) := by
  unfold is_all_kana
  exact List.all_append

theorem c6_erp (uk : Bool) (p : Nat) (word trail : Str) (endings : List Str)
    (H1 : ∀ en ∈ endings, is_all_kana en = true → is_all_kana trail = true)
    (H2 : is_all_kana trail = true → ∀ en ∈ endings, is_all_kana en = true)
    (k : Str × Nat) (hk : k ∈ end_replace_push uk p word trail endings) :
    is_all_kana k.1 = is_all_kana word ∧ k.2 = erpPriority uk p word := by
  rcases (mem_end_replace_push uk p word trail endings k).mp hk with
    hbase | ⟨hgate, en, hen, hvar⟩
  · rcases (mem_pushKana _ _ _).mp hbase with ⟨hv, rfl⟩ | rfl
    · exact ⟨is_all_kana_h2k word, rfl⟩
    · exact ⟨rfl, rfl⟩
  · have hsuf : trail <:+ word := List.isSuffixOf_iff_suffix.mp hgate.2.2
    have hw : word.take (word.length - trail.length) ++ trail = word :=
      List.suffix_iff_eq_append.mp hsuf
    set stem := word.take (word.length - trail.length) with hstem
    have hiff : is_all_kana (stem ++ en) = is_all_kana word := by
      conv_rhs => rw [← hw]
      rw [is_all_kana_append, is_all_kana_append]
      cases ht : is_all_kana trail
      · have hen' : is_all_kana en = false := by
          cases he : is_all_kana en
          · rfl
          · rw [H1 en hen he] at ht
            cases ht
        rw [hen']
      · rw [H2 ht en hen]
    rcases (mem_pushKana _ _ _).mp hvar with ⟨hv, rfl⟩ | rfl
    · refine ⟨?_, rfl⟩
      rw [is_all_kana_h2k, hiff]
    · exact ⟨hiff, rfl⟩

theorem c6_ruleKeys (uk : Bool) (p : Nat) (conj : ConjugationClass) (word : Str)
    (k : Str × Nat) (hk : k ∈ ruleKeys uk p conj word) :
    is_all_kana k.1 = is_all_kana word ∧ k.2 = erpPriority uk p word := by
  cases conj <;> simp only [ruleKeys] at hk <;>
    first
      | exact c6_erp _ _ _ _ _ (by decide) (by decide) _ hk
      | exact (List.mem_append.mp hk).elim
          (fun h => c6_erp _ _ _ _ _ (by decide) (by decide) _ h)
          (fun h => c6_erp _ _ _ _ _ (by decide) (by decide) _ h)

theorem c3_erp (uk : Bool) (p : Nat) (word trail : Str) (endings : List Str)
    (k : Str × Nat) (hk : k ∈ end_replace_push uk p word trail endings)
    (hkana : is_all_kana k.1 = true) :
    (hiragana_to_katakana k.1, k.2) ∈ end_replace_push uk p word trail endings := by
  rw [mem_end_replace_push] at hk ⊢
  rcases hk with hbase | ⟨hgate, en, hen, hvar⟩
  · left
    rcases (mem_pushKana _ _ _).mp hbase with ⟨hv, rfl⟩ | rfl
    · exact (mem_pushKana _ _ _).mpr (Or.inl ⟨hv, by rw [hiragana_to_katakana_idem]⟩)
    · exact (mem_pushKana _ _ _).mpr (Or.inl ⟨hkana, rfl⟩)
  · right
    refine ⟨hgate, en, hen, ?_⟩
    rcases (mem_pushKana _ _ _).mp hvar with ⟨hv, rfl⟩ | rfl
    · exact (mem_pushKana _ _ _).mpr (Or.inl ⟨hv, by rw [hiragana_to_katakana_idem]⟩)
    · exact (mem_pushKana _ _ _).mpr (Or.inl ⟨hkana, rfl⟩)

theorem c3_ruleKeys (uk : Bool) (p : Nat) (conj : ConjugationClass) (word : Str)
    (k : Str × Nat) (hk : k ∈ ruleKeys uk p conj word)
    (hkana : is_all_kana k.1 = true) :
    (hiragana_to_katakana k.1, k.2) ∈ ruleKeys uk p conj word := by
  cases conj <;> simp only [ruleKeys] at hk ⊢ <;>
    first
      | exact c3_erp _ _ _ _ _ _ hk hkana
      | exact (List.mem_append.mp hk).elim
          (fun h => List.mem_append.mpr (Or.inl (c3_erp _ _ _ _ _ _ h hkana)))
          (fun h => List.mem_append.mpr (Or.inr (c3_erp _ _ _ _ _ _ h hkana)))

/-- A katakana-reading word entry, concrete input for C3 and C8. -/
def coffeeEntry : WordEntry :=
  ⟨[], [str "コーヒー"], [str "coffee"], PartOfSpeech.Other,
    ConjugationClass.Other, false, [], 0⟩

/-- C3 counterexample: for the katakana-only reading コーヒー the produced
key set contains only the katakana spelling; its hiragana spelling differs
from it and is absent, so an all-phonetic form is not emitted under both
phonetic scripts when it is originally katakana. -/
theorem claim3_counterexample :
    generate_lookup_keys coffeeEntry = [(str "コーヒー", 0)]
  ∧ is_all_kana (str "コーヒー") = true
  ∧ katakana_to_hiragana (str "コーヒー") ≠ str "コーヒー" := by decide

/-- C3 (amended): every key of `generate_lookup_keys` whose surface form is
entirely phonetic script is also present under its katakana conversion with
the same priority; the hiragana spelling is not guaranteed (it appears only
when the form itself was hiragana). -/
theorem claim3_amended_katakana_twin (e : WordEntry) (s : Str) (p : Nat)
    (hk : (s, p) ∈ generate_lookup_keys e) (hkana : is_all_kana s = true) :
    (hiragana_to_katakana s, p) ∈ generate_lookup_keys e := by
  rcases (mem_generate_lookup_keys e (s, p)).mp hk with ⟨w, hw, hr⟩
  exact (mem_generate_lookup_keys e _).mpr
    ⟨w, hw, c3_ruleKeys _ _ _ _ (s, p) hr hkana⟩

/-- Witness for the amended C3 at a concrete input. -/
theorem claim3_amended_katakana_twin_witness :
    (hiragana_to_katakana (str "コーヒー"), 0) ∈ generate_lookup_keys coffeeEntry :=
  claim3_amended_katakana_twin coffeeEntry (str "コーヒー") 0 (by decide) (by decide)

/-- C6: for an entry flagged usually-written-in-kana, every all-phonetic key
carries priority `priority / 8`, every non-phonetic key carries the
undivided priority, and (for positive priority) each phonetic key's priority
is numerically ≤ that of every non-phonetic key of the same entry. -/
theorem claim6_usually_kana_priority (e : WordEntry) (huk : e.usually_kana = true) :
    (∀ s p, (s, p) ∈ generate_lookup_keys e →
        (is_all_kana s = true → p = e.priority / 8)
      ∧ (is_all_kana s = false → p = e.priority))
  ∧ (0 < e.priority → ∀ s p t q, (s, p) ∈ generate_lookup_keys e →
      (t, q) ∈ generate_lookup_keys e → is_all_kana s = true →
      is_all_kana t = false → p ≤ q) := by
  have main : ∀ s p, (s, p) ∈ generate_lookup_keys e →
      (is_all_kana s = true → p = e.priority / 8)
    ∧ (is_all_kana s = false → p = e.priority) := by
    intro s p hk
    rcases (mem_generate_lookup_keys e (s, p)).mp hk with ⟨w, _, hr⟩
    have h1 : is_all_kana s = is_all_kana w :=
      (c6_ruleKeys e.usually_kana e.priority e.conj w (s, p) hr).1
    have h2 : p = erpPriority e.usually_kana e.priority w :=
      (c6_ruleKeys e.usually_kana e.priority e.conj w (s, p) hr).2
    constructor
    · intro hs
      have hwk : is_all_kana w = true := by rw [← h1, hs]
      rw [h2]
      unfold erpPriority
      rw [hwk, huk]
      rfl
    · intro hs
      have hwk : is_all_kana w = false := by rw [← h1, hs]
      rw [h2]
      unfold erpPriority
      rw [hwk]
      rfl
  refine ⟨main, ?_⟩
  intro _ s p t q hs hq hks hkt
  rw [(main s p hs).1 hks, (main t q hq).2 hkt]
  exact Nat.div_le_self _ _

/-- A usually-kana entry with a kanji writing, concrete input for C6. -/
def ukEntry : WordEntry :=
  ⟨[str "食べる"], [str "たべる"], [], PartOfSpeech.Other,
    ConjugationClass.Other, true, [], 8⟩

/-- Witness for C6 at a concrete input. -/
theorem claim6_usually_kana_priority_witness :
    ((str "たべる", 1) ∈ generate_lookup_keys ukEntry ∧ 1 = ukEntry.priority / 8)
  ∧ ((str "食べる", 8) ∈ generate_lookup_keys ukEntry ∧ 8 = ukEntry.priority) := by
  have h := claim6_usually_kana_priority ukEntry rfl
  exact ⟨⟨by decide, (h.1 (str "たべる") 1 (by decide)).1 (by decide)⟩,
         ⟨by decide, (h.1 (str "食べる") 8 (by decide)).2 (by decide)⟩⟩

theorem pushKana_not_kana (v : Str) (pr : Nat) (h : is_all_kana v = false) :
    pushKana v pr = [(v, pr)] := by
  unfold pushKana
  rw [h]
  rfl

theorem erpPriority_not_kana (uk : Bool) (p : Nat) (word : Str)
    (h : is_all_kana word = false) : erpPriority uk p word = p := by
  unfold erpPriority
  rw [h]
  rfl

theorem erp_taberu (uk : Bool) (p : Nat) :
    end_replace_push uk p (str "食べる") (str "る")
        [str "", str "られ", str "させ", str "ろ", str "て", str "た"] =
      [(str "食べる", p), (str "食べ", p), (str "食べられ", p), (str "食べさせ", p),
       (str "食べろ", p), (str "食べて", p), (str "食べた", p)] := by
  unfold end_replace_push
  rw [erpPriority_not_kana uk p _ (by decide), if_pos (by decide)]
  rfl

theorem ruleKeys_taberu (uk : Bool) (p : Nat) :
    ruleKeys uk p ConjugationClass.IchidanVerb (str "食べる") =
      [(str "食べる", p), (str "食べ", p), (str "食べられ", p), (str "食べさせ", p),
       (str "食べろ", p), (str "食べて", p), (str "食べた", p)] :=
  erp_taberu uk p

/-- C7: for any word entry of the ichidan class having 食べる among its
writings, the expanded key set contains the base form 食べる together with
the stem 食べ concatenated with each replacement suffix of the ichidan rule
(食べ, 食べられ, 食べさせ, 食べろ, 食べて, 食べた). -/
theorem claim7_ichidan_taberu (e : WordEntry)
    (hconj : e.conj = ConjugationClass.IchidanVerb)
    (hw : str "食べる" ∈ e.writings) :
    ∀ s ∈ [str "食べる", str "食べ", str "食べられ", str "食べさせ",
           str "食べろ", str "食べて", str "食べた"],
      ∃ p, (s, p) ∈ generate_lookup_keys e := by
  intro s hs
  have hwf : str "食べる" ∈ wordForms e :=
    (mem_wordForms e _).mpr (List.mem_append.mpr (Or.inl hw))
  refine ⟨e.priority, (mem_generate_lookup_keys e _).mpr ⟨str "食べる", hwf, ?_⟩⟩
  rw [hconj, ruleKeys_taberu]
  fin_cases hs <;> simp

/-- Witness for C7 at a concrete input. -/
theorem claim7_ichidan_taberu_witness :
    ∃ p, (str "食べて", p) ∈ generate_lookup_keys
      ⟨[str "食べる"], [str "たべる"], [], PartOfSpeech.Verb,
        ConjugationClass.IchidanVerb, false, [], 2⟩ :=
  claim7_ichidan_taberu _ rfl (by decide) (str "食べて") (by decide)

theorem base_mem_ruleKeys (uk : Bool) (p : Nat) (conj : ConjugationClass)
    (word : Str) :
    (word, erpPriority uk p word) ∈ ruleKeys uk p conj word := by
  have herp : ∀ trail endings,
      (word, erpPriority uk p word) ∈ end_replace_push uk p word trail endings := by
    intro trail endings
    unfold end_replace_push
    exact List.mem_append.mpr (Or.inl ((mem_pushKana _ _ _).mpr (Or.inr rfl)))
  cases conj <;> simp only [ruleKeys] <;>
    first
      | exact herp _ _
      | exact List.mem_append.mpr (Or.inl (herp _ _))

/-- C8: when the rule suffix is empty or the base form does not end with it
(being shorter is a special case of not ending with it), `end_replace_push`
contributes exactly the base-form keys and no inflected variant; and for
every entry, every base form is always retained as a key of
`generate_lookup_keys`. -/
theorem claim8_mismatch_keeps_base :
    (∀ (uk : Bool) (p : Nat) (word trail : Str) (endings : List Str),
      trail = [] ∨ trail.isSuffixOf word = false →
      end_replace_push uk p word trail endings =
        pushKana word (erpPriority uk p word))
  ∧ ∀ (e : WordEntry) (w : Str), w ∈ wordForms e →
      (w, erpPriority e.usually_kana e.priority w) ∈ generate_lookup_keys e := by
  constructor
  · intro uk p word trail endings h
    have hng : ¬ (0 < byteLen trail ∧ byteLen trail ≤ byteLen word ∧
        trail.isSuffixOf word = true) := by
      intro hgate
      rcases hgate with ⟨h1, _, h3⟩
      rcases h with rfl | h
      · simp [byteLen] at h1
      · rw [h] at h3
        cases h3
    unfold end_replace_push
    rw [if_neg hng, List.append_nil]
  · intro e w hw
    exact (mem_generate_lookup_keys e _).mpr ⟨w, hw, base_mem_ruleKeys _ _ _ _⟩

/-- Witness for C8 at concrete inputs. -/
theorem claim8_mismatch_keeps_base_witness :
    end_replace_push false 5 (str "たべる") (str "う") [str "わ"] =
      pushKana (str "たべる") (erpPriority false 5 (str "たべる"))
  ∧ (str "コーヒー", 0) ∈ generate_lookup_keys coffeeEntry :=
  ⟨claim8_mismatch_keeps_base.1 false 5 (str "たべる") (str "う") [str "わ"]
      (Or.inr (by decide)),
   claim8_mismatch_keeps_base.2 coffeeEntry (str "コーヒー") (by decide)⟩

/-- The fixed markup around the word-type span (main.rs lines 317-319). -/
def WORD_TYPE_START : Str :=
  str " <span style=\"font-size: 0.8em; font-style: italic; margin-left: 0; white-space: nowrap;\">"

def WORD_TYPE_END : Str := str "</span>"

/-- Decimal rendering of a number, as in Rust's `format!("[{}]", a)` body. -/
def natToStr (n : Nat) : Str := str (Nat.repr n)

/-- The headword-bracket loop of `generate_header_text` (main.rs lines
303-314): `first` tracks whether a ／ separator is needed before the next
writing. -/
def bracketLoop (t : Str) (first : Bool) : List Str → Str
  | [] => t
  | w :: ws => bracketLoop (t ++ (if first then [] else str "／") ++ w) false ws

/-- The content between 【 and 】 in the rendered header (main.rs lines
302-315): the first reading is emitted first exactly when the entry is
usually-kana or has no writings, and then every writing follows. -/
def headwordBracket (e : WordEntry) : Str :=
  if e.usually_kana || e.writings.isEmpty then
    bracketLoop (e.readings.headD []) false e.writings
  else
    bracketLoop [] true e.writings

/-- The verb conjugation-family label (main.rs lines 322-347). -/
def conjTypeText (conj : ConjugationClass) : Str :=
  match conj with
  | ConjugationClass.IchidanVerb => str ", ichidan"
  | ConjugationClass.GodanVerbU | ConjugationClass.GodanVerbTsu
  | ConjugationClass.GodanVerbRu | ConjugationClass.GodanVerbKu
  | ConjugationClass.GodanVerbGu | ConjugationClass.GodanVerbNu
  | ConjugationClass.GodanVerbBu | ConjugationClass.GodanVerbMu
  | ConjugationClass.GodanVerbSu => str ", godan"
  | ConjugationClass.SuruVerb | ConjugationClass.SuruVerbSC
  | ConjugationClass.KuruVerb | ConjugationClass.IkuVerb
  | ConjugationClass.KureruVerb | ConjugationClass.AruVerb
  | ConjugationClass.SharuVerb | ConjugationClass.GodanVerbHu
  | ConjugationClass.IrregularVerb => str ", irregular"
  | _ => str ""

/-- The transitivity label (main.rs lines 349-367). -/
def transitiveText (use_move_terms : Bool) (tags : List Str) : Str :=
  let transitive := tags.contains (str "pos:vt")
  let intransitive := tags.contains (str "pos:vi")
  match transitive, intransitive with
  | true, false => if use_move_terms then str ", other-move" else str ", transitive"
  | false, true => if use_move_terms then str ", self-move" else str ", intransitive"
  | _, _ => str ""

/-- `generate_header_text` (main.rs lines 276-395). -/
def generate_header_text (use_katakana use_move_terms : Bool) (kana : Str)
    (pitch_accent : Option (List Nat)) (e : WordEntry) : Str :=
  let t0 := if use_katakana then hiragana_to_katakana kana else katakana_to_hiragana kana
  let t1 := t0 ++
    (match pitch_accent with
     | some accent_list =>
        if accent_list.isEmpty then []
        else str " " ++ (accent_list.map (fun a => str "[" ++ natToStr a ++ str "]")).flatten
     | none => [])
  let t2 := t1 ++ str " &nbsp;&nbsp;&mdash; 【" ++ headwordBracket e ++ str "】"
  t2 ++
    (match e.pos with
     | PartOfSpeech.Verb =>
        WORD_TYPE_START ++ str "verb" ++ conjTypeText e.conj ++
          transitiveText use_move_terms e.tags ++ WORD_TYPE_END
     | PartOfSpeech.Adjective =>
        WORD_TYPE_START ++
          (match e.conj with
           | ConjugationClass.IAdjective => str "i-adjective"
           | ConjugationClass.IrregularIAdjective => str "i-adjective, irregular"
           | _ => str "adjective") ++ WORD_TYPE_END
     | _ => [])

/-- A usually-kana entry that nevertheless has a writing: concrete input
for C2. -/
def ukWithWriting : WordEntry :=
  ⟨[str "食べる"], [str "たべる"], [], PartOfSpeech.Other,
    ConjugationClass.Other, true, [], 0⟩

/-- C2 counterexample: for a phonetic-usual entry that does have writings,
the bracketed display-headword list is not the first reading alone, and the
writing does appear in it (and in the full rendered header). -/
theorem claim2_counterexample :
    ukWithWriting.usually_kana = true
  ∧ ukWithWriting.writings ≠ []
  ∧ headwordBracket ukWithWriting = str "たべる／食べる"
  ∧ headwordBracket ukWithWriting ≠ str "たべる"
  ∧ (str "食べる") <:+: headwordBracket ukWithWriting
  ∧ (str "【たべる／食べる】") <:+:
      generate_header_text false false (str "たべる") none ukWithWriting := by
  decide

/-- The ／-separated join, used to state the amended C2. -/
def joinSlash : List Str → Str
  | [] => []
  | [w] => w
  | w :: ws => w ++ str "／" ++ joinSlash ws

theorem bracketLoop_false (ws : List Str) : ∀ t : Str,
    bracketLoop t false ws = t ++ (ws.map (fun w => str "／" ++ w)).flatten := by
  induction ws with
  | nil => intro t; simp [bracketLoop]
  | cons w ws ih =>
    intro t
    simp only [bracketLoop, if_neg (by simp : ¬ (false = true)), ih,
      List.map_cons, List.flatten_cons, List.append_assoc]

theorem joinSlash_cons (x : Str) : ∀ ws : List Str,
    joinSlash (x :: ws) = x ++ (ws.map (fun w => str "／" ++ w)).flatten
  | [] => by simp [joinSlash]
  | w :: ws => by
    have ih := joinSlash_cons w ws
    simp only [joinSlash, List.map_cons, List.flatten_cons]
    rw [ih]
    simp [List.append_assoc]

/-- C2 (amended): the bracketed display-headword list is the first reading
followed by every writing (／-separated) when the entry is phonetic-usual or
has no writings, and every writing alone otherwise; in particular the
writings of a phonetic-usual entry do appear, after the reading. -/
theorem claim2_amended_bracket (e : WordEntry) :
    headwordBracket e =
      if e.usually_kana || e.writings.isEmpty then
        joinSlash (e.readings.headD [] :: e.writings)
      else joinSlash e.writings := by
  unfold headwordBracket
  split_ifs with h
  · rw [bracketLoop_false, joinSlash_cons]
  · cases hw : e.writings with
    | nil => simp [bracketLoop, joinSlash]
    | cons w ws =>
      simp only [bracketLoop, if_pos rfl, List.nil_append]
      rw [bracketLoop_false, joinSlash_cons]
      simp

/-- Rust `char::is_whitespace`: the Unicode White_Space code points. -/
def isRustWhitespace (c : Nat) : Bool :=
  decide (c = 0x9 ∨ c = 0xA ∨ c = 0xB ∨ c = 0xC ∨ c = 0xD ∨ c = 0x20 ∨ c = 0x85
    ∨ c = 0xA0 ∨ c = 0x1680 ∨ (0x2000 ≤ c ∧ c ≤ 0x200A) ∨ c = 0x2028 ∨ c = 0x2029
    ∨ c = 0x202F ∨ c = 0x205F ∨ c = 0x3000)

/-- Rust `str::trim`. -/
def trim (s : Str) : Str :=
  ((s.dropWhile isRustWhitespace).reverse.dropWhile isRustWhitespace).reverse

/-- `generate_definition_text` (main.rs lines 397-424): numbered primary
glosses, then one block per matched Yomichan term entry, then the first
matched Kobo native definition verbatim. -/
def generate_definition_text (jm : WordEntry) (yomi : List TermEntry)
    (kobo : List KoboJaEntry) : Str :=
  str "<p style=\"margin-top: 0.7em; margin-bottom: 0.7em;\"><ol>" ++
    (jm.definitions.map (fun d => str "<li>" ++ d ++ str "</li>")).flatten ++
    str "</ol></p>" ++
    (yomi.map (fun en => str "<p>" ++ en.dict_name ++ str ":<br/><ol>" ++
      (en.definitions.map (fun d => str "<li>" ++ d ++ str "</li>")).flatten ++
      str "</ol></p>")).flatten ++
    ((kobo.take 1).map (fun k => k.definition)).flatten

/-- Drops the last `n` characters: Rust `String::pop` applied `n` times. -/
def popN (s : Str) (n : Nat) : Str := s.take (s.length - n)

/-- `generate_name_entry_text` (main.rs lines 595-638). -/
def generate_name_entry_text (use_katakana : Bool) (entry : TermEntry) : Str :=
  (if (trim entry.reading).isEmpty then []
   else (if use_katakana then hiragana_to_katakana entry.reading
         else katakana_to_hiragana entry.reading) ++ str " &nbsp;&nbsp;&mdash; ") ++
  str "【" ++ entry.writing ++ str "】" ++
  WORD_TYPE_START ++ str "name" ++
  (if entry.tags.isEmpty then []
   else str ": " ++ popN ((entry.tags.map (fun t => t ++ str ", ")).flatten) 2) ++
  WORD_TYPE_END ++
  (if entry.definitions.isEmpty then []
   else str "<p><ul>" ++
     (entry.definitions.map (fun d => str "<li>" ++ d ++ str "</li>")).flatten ++
     str "</ul></p>")

/-- `generate_kanji_entry_text` (main.rs lines 640-677).  Note the closing
`</span>` is emitted only when the meanings list is non-empty, exactly as in
the source. -/
def generate_kanji_entry_text (entry : KanjiEntry) : Str :=
  str "<p style=\"margin-left: 2.5em; margin-bottom: 0.7em; text-indent: -2.5em;\"><span style=\"font-size: 1.5em;\">" ++
  entry.kanji ++
  (if entry.meanings.isEmpty then []
   else str "</span>　" ++ popN ((entry.meanings.map (fun m => m ++ str ", ")).flatten) 2) ++
  str "</p>" ++
  (if entry.onyomi.isEmpty then []
   else str "<p style=\"margin-left: 2.5em; text-indent: -2.5em;\">音:　" ++
     popN ((entry.onyomi.map (fun o => o ++ str "／")).flatten) 1 ++ str "</p>") ++
  (if entry.kunyomi.isEmpty then []
   else str "<p style=\"margin-left: 2.5em; text-indent: -2.5em;\">訓:　" ++
     popN ((entry.kunyomi.map (fun k => k ++ str "／")).flatten) 1 ++ str "</p>")

/-- `HashMap::entry(k).or_insert(Vec::new()).push(v)` on an association
table kept in first-insertion key order, appending to the value list of an
existing key. -/
def tableInsert {κ α : Type} [DecidableEq κ] (k : κ) (v : α) :
    List (κ × List α) → List (κ × List α)
  | [] => [(k, [v])]
  | (k', vs) :: rest =>
      if k' = k then (k', vs ++ [v]) :: rest else (k', vs) :: tableInsert k v rest

/-- Builds a keyed multimap from a record stream, preserving insertion order
within each value list.  The association list's own order (first-insertion
order of the keys) is one fixed representative of the unspecified `HashMap`
iteration order; the pipeline below is parameterized over permutations of
it. -/
def buildTable {κ α : Type} [DecidableEq κ] (key : α → κ) (l : List α) :
    List (κ × List α) :=
  l.foldl (fun t a => tableInsert (key a) a t) []

/-- `HashMap::get` on the association table. -/
def tableGet {κ α : Type} [DecidableEq κ] (t : List (κ × List α)) (k : κ) :
    Option (List α) :=
  (t.find? (fun p => decide (p.1 = k))).map Prod.snd

/-- The (writing, reading) key under which `main` indexes a JMDict entry
(main.rs lines 86-95). -/
def jmKey (e : WordEntry) : Str × Str :=
  (if e.writings.length > 0 then e.writings.headD []
   else trim (e.readings.headD []),
   strip_non_kana (hiragana_to_katakana (trim (e.readings.headD []))))

/-- The JMDict table of `main` (main.rs lines 82-96). -/
def buildJmTable (l : List WordEntry) : List ((Str × Str) × List WordEntry) :=
  buildTable jmKey l

/-- The key under which `main` indexes a Yomichan name entry (main.rs lines
169-183): the trimmed writing, or the trimmed reading when the writing is
blank, paired with the normalized reading. -/
def nameKey (t : TermEntry) : Str × Str :=
  let reading := strip_non_kana (hiragana_to_katakana (trim t.reading))
  if (trim t.writing).isEmpty then (trim t.reading, reading)
  else (trim t.writing, reading)

/-- The Yomichan name table of `main` (main.rs lines 140, 167-183). -/
def buildNameTable (l : List TermEntry) : List ((Str × Str) × List TermEntry) :=
  buildTable nameKey l

/-- The Yomichan kanji table of `main` (main.rs lines 141, 185-192). -/
def buildKanjiTable (l : List KanjiEntry) : List (Str × List KanjiEntry) :=
  buildTable KanjiEntry.kanji l

/-- The configuration flags consumed by the entry-generation pipeline. -/
structure Config where
  katakana : Bool
  use_move_terms : Bool
  deriving DecidableEq

/-- One generated term entry (main.rs lines 204-237). -/
def makeTermEntry (cfg : Config) (paTbl : List ((Str × Str) × List Nat))
    (yomiTermTbl : List ((Str × Str) × List TermEntry))
    (koboTbl : List ((Str × Str) × List KoboJaEntry))
    (kanji kana : Str) (jm : WordEntry) : KoboEntry :=
  ⟨generate_lookup_keys jm,
   str "<hr/>" ++
     generate_header_text cfg.katakana cfg.use_move_terms kana
       (tableGet paTbl (kanji, kana)) jm ++
     generate_definition_text jm ((tableGet yomiTermTbl (kanji, kana)).getD [])
       ((tableGet koboTbl (kanji, kana)).getD [])⟩

/-- The term-entry outputs (main.rs lines 203-238). -/
def termOutputs (cfg : Config) (paTbl : List ((Str × Str) × List Nat))
    (yomiTermTbl : List ((Str × Str) × List TermEntry))
    (koboTbl : List ((Str × Str) × List KoboJaEntry))
    (jmTbl : List ((Str × Str) × List WordEntry)) : List KoboEntry :=
  jmTbl.flatMap (fun p =>
    p.2.map (makeTermEntry cfg paTbl yomiTermTbl koboTbl p.1.1 p.1.2))

/-- `std::u32::MAX`, the fixed priority of name entries (main.rs line 249). -/
def U32_MAX : Nat := 4294967295

/-- The name-entry outputs (main.rs lines 241-253): one output per name
record, keyed by the table key's writing at priority `u32::MAX`. -/
def nameOutputs (cfg : Config) (tbl : List ((Str × Str) × List TermEntry)) :
    List KoboEntry :=
  tbl.flatMap (fun p =>
    p.2.map (fun it =>
      ⟨[(p.1.1, U32_MAX)], str "<hr/>" ++ generate_name_entry_text cfg.katakana it⟩))

/-- The kanji-entry outputs (main.rs lines 256-264): one output per distinct
character, keyed (character, 0), body rendered from `items[0]` only. -/
def kanjiOutputs (tbl : List (Str × List KanjiEntry)) : List KoboEntry :=
  tbl.map (fun p =>
    ⟨[(p.1, 0)], str "<hr/>" ++ generate_kanji_entry_text (p.2.headD ⟨[], [], [], []⟩)⟩)

/-- The final sort of `main` (main.rs line 266): stable sort by the byte
length of the first key's string only. -/
def entryLenLe (a b : KoboEntry) : Bool :=
  decide (byteLen (a.keys.headD ([], 0)).1 ≤ byteLen (b.keys.headD ([], 0)).1)

/-- The entry-generation and ranking pipeline of `main` (main.rs lines
198-266), parameterized over the iteration orders of the underlying hash
tables (Rust `HashMap` iteration order is unspecified and varies between
runs). -/
def processEntries (cfg : Config)
    (jmTbl : List ((Str × Str) × List WordEntry))
    (paTbl : List ((Str × Str) × List Nat))
    (yomiTermTbl : List ((Str × Str) × List TermEntry))
    (koboTbl : List ((Str × Str) × List KoboJaEntry))
    (nameTbl : List ((Str × Str) × List TermEntry))
    (kanjiTbl : List (Str × List KanjiEntry)) : List KoboEntry :=
  insertionSortB entryLenLe
    (termOutputs cfg paTbl yomiTermTbl koboTbl jmTbl ++
     nameOutputs cfg nameTbl ++ kanjiOutputs kanjiTbl)

/-- A word entry whose only form is the reading たべる: concrete pipeline
input for C1 and C4. -/
def jmA : WordEntry :=
  ⟨[], [str "たべる"], [str "a"], PartOfSpeech.Other, ConjugationClass.Other,
    false, [], 0⟩

/-- A word entry whose only form is the reading かける (same key lengths as
`jmA`): concrete pipeline input for C4. -/
def jmB : WordEntry :=
  ⟨[], [str "かける"], [str "b"], PartOfSpeech.Other, ConjugationClass.Other,
    false, [], 0⟩

/-- A name entry with the one-character writing あ: concrete input for C1. -/
def nameA : TermEntry := ⟨str "あ", str "", [], str "names", []⟩

/-- A word entry with the two-ASCII-character writing ab: concrete input for
C1 (its first key is shorter, in bytes, than a single kanji character). -/
def jmC : WordEntry :=
  ⟨[str "ab"], [str "あ"], [str "c"], PartOfSpeech.Other, ConjugationClass.Other,
    false, [], 0⟩

/-- A kanji entry for the character 食: concrete input for C1 and C10. -/
def kanjiFood : KanjiEntry := ⟨str "食", [str "eat"], [str "ショク"], [str "た"]⟩

/-- C1: the final sort (main.rs line 266) orders entries by the byte length
of the first key's string only, never consulting priorities.  A name entry
with a short writing therefore sorts before a longer non-name entry despite
its `u32::MAX` priority (contradicting the comment `// Always sort names
last.`), and a kanji entry sorts after a shorter multi-character entry of
equal priority. -/
theorem claim1_sort_ignores_priority :
    (processEntries ⟨false, false⟩ (buildJmTable [jmA]) [] [] []
        (buildNameTable [nameA]) []).map KoboEntry.keys =
      [[(str "あ", U32_MAX)], [(str "たべる", 0), (str "タベル", 0)]]
  ∧ (processEntries ⟨false, false⟩ (buildJmTable [jmC]) [] [] [] []
        (buildKanjiTable [kanjiFood])).map KoboEntry.keys =
      [[(str "ab", 0), (str "あ", 0), (str "ア", 0)], [(str "食", 0)]] := by
  decide

/-- Auxiliary: a permutation of record lists induces a permutation of their
`flatMap`. -/
theorem perm_flatMap {α β : Type} (f : α → List β) {l₁ l₂ : List α}
    (h : l₁.Perm l₂) : (l₁.flatMap f).Perm (l₂.flatMap f) := by
  induction h with
  | nil => exact List.Perm.refl _
  | cons a h ih =>
    simp only [List.flatMap_cons]
    exact ih.append_left (f a)
  | swap a b l =>
    simp only [List.flatMap_cons, ← List.append_assoc]
    exact (List.perm_append_comm).append_right _
  | trans h₁ h₂ ih₁ ih₂ => exact ih₁.trans ih₂

/-- C4 (amended): for a fixed iteration order of the underlying tables the
pipeline is a pure function (identical inputs give identical outputs), and
across any two iteration orders the outputs are permutations of each other;
but the relative order of entries with equal sort keys follows the
unspecified `HashMap` iteration order, so it is not run-to-run stable. -/
theorem claim4_amended_deterministic_up_to_order (cfg : Config)
    (paTbl : List ((Str × Str) × List Nat))
    (yomiTermTbl : List ((Str × Str) × List TermEntry))
    (koboTbl : List ((Str × Str) × List KoboJaEntry))
    (jm₁ jm₂ : List ((Str × Str) × List WordEntry))
    (nm₁ nm₂ : List ((Str × Str) × List TermEntry))
    (kj₁ kj₂ : List (Str × List KanjiEntry))
    (hjm : jm₁.Perm jm₂) (hnm : nm₁.Perm nm₂) (hkj : kj₁.Perm kj₂) :
    (processEntries cfg jm₁ paTbl yomiTermTbl koboTbl nm₁ kj₁).Perm
      (processEntries cfg jm₂ paTbl yomiTermTbl koboTbl nm₂ kj₂) := by
  unfold processEntries
  refine ((perm_insertionSortB entryLenLe _).trans ?_).trans
    (perm_insertionSortB entryLenLe _).symm
  exact ((perm_flatMap _ hjm).append (perm_flatMap _ hnm)).append (hkj.map _)

/-- The JM table of `[jmA, jmB]` under the opposite iteration order. -/
def jmTableSwapped : List ((Str × Str) × List WordEntry) :=
  [((str "かける", str "カケル"), [jmB]), ((str "たべる", str "タベル"), [jmA])]

/-- C4 counterexample: the two iteration orders of the same two-entry table
are permutations of each other, yet the pipeline's output sequences differ
(the two outputs have equal sort keys, so the stable sort preserves the
iteration order).  Identical input record sequences therefore do not yield
an identical ordered output sequence. -/
theorem claim4_counterexample :
    jmTableSwapped.Perm (buildJmTable [jmA, jmB])
  ∧ processEntries ⟨false, false⟩ (buildJmTable [jmA, jmB]) [] [] [] [] []
      ≠ processEntries ⟨false, false⟩ jmTableSwapped [] [] [] [] [] := by
  constructor
  · rw [show buildJmTable [jmA, jmB] =
      [((str "たべる", str "タベル"), [jmA]), ((str "かける", str "カケル"), [jmB])]
      from by decide]
    exact List.Perm.swap _ _ _
  · decide

/-- Witness for the amended C4, applying it to the two concrete iteration
orders of the C4 counterexample. -/
theorem claim4_amended_deterministic_up_to_order_witness :
    (processEntries ⟨false, false⟩ (buildJmTable [jmA, jmB]) [] [] [] [] []).Perm
      (processEntries ⟨false, false⟩ jmTableSwapped [] [] [] [] []) := by
  refine claim4_amended_deterministic_up_to_order ⟨false, false⟩ [] [] [] _ _ _ _ _ _
    ?_ (List.Perm.refl _) (List.Perm.refl _)
  rw [show buildJmTable [jmA, jmB] =
      [((str "たべる", str "タベル"), [jmA]), ((str "かける", str "カケル"), [jmB])]
      from by decide]
  exact List.Perm.swap _ _ _

theorem map_fst_tableInsert {κ α : Type} [DecidableEq κ] (k0 : κ) (v : α) :
    ∀ t : List (κ × List α),
      (tableInsert k0 v t).map Prod.fst =
        if k0 ∈ t.map Prod.fst then t.map Prod.fst else t.map Prod.fst ++ [k0]
  | [] => by simp [tableInsert]
  | (k', vs') :: rest => by
    by_cases h : k' = k0
    · subst h
      simp [tableInsert]
    · have hne : ¬ k0 = k' := fun he => h he.symm
      simp only [tableInsert, if_neg h, List.map_cons,
        map_fst_tableInsert k0 v rest, List.mem_cons, hne, false_or,
        List.cons_append]
      by_cases h2 : k0 ∈ rest.map Prod.fst
      · rw [if_pos h2, if_pos h2]
      · rw [if_neg h2, if_neg h2]

theorem mem_tableInsert_of {κ α : Type} [DecidableEq κ] (k0 : κ) (v : α) :
    ∀ (t : List (κ × List α)), (t.map Prod.fst).Nodup →
      ∀ k vs, (k, vs) ∈ tableInsert k0 v t →
        ((k, vs) ∈ t ∧ k ≠ k0)
        ∨ (k = k0 ∧ ∃ vs0, (k0, vs0) ∈ t ∧ vs = vs0 ++ [v])
        ∨ (k = k0 ∧ k0 ∉ t.map Prod.fst ∧ vs = [v])
  | [], _, k, vs, h => by
    simp only [tableInsert, List.mem_singleton, Prod.mk.injEq] at h
    exact Or.inr (Or.inr ⟨h.1, by simp, h.2⟩)
  | (k', vs') :: rest, hnd, k, vs, h => by
    rcases List.nodup_cons.mp hnd with ⟨hk'n, hndr⟩
    by_cases hk : k' = k0
    · subst hk
      simp only [tableInsert, if_pos rfl] at h
      rcases List.mem_cons.mp h with heq | hmem
      · simp only [Prod.mk.injEq] at heq
        obtain ⟨rfl, rfl⟩ := heq
        exact Or.inr (Or.inl ⟨rfl, vs', List.mem_cons_self _ _, rfl⟩)
      · have hkne : k ≠ k' := by
          intro he
          subst he
          exact hk'n (List.mem_map.mpr ⟨(k, vs), hmem, rfl⟩)
        exact Or.inl ⟨List.mem_cons_of_mem _ hmem, hkne⟩
    · simp only [tableInsert, if_neg hk] at h
      rcases List.mem_cons.mp h with heq | hmem
      · simp only [Prod.mk.injEq] at heq
        obtain ⟨rfl, rfl⟩ := heq
        exact Or.inl ⟨List.mem_cons_self _ _, hk⟩
      · rcases mem_tableInsert_of k0 v rest hndr k vs hmem with
          ⟨hm, hne⟩ | ⟨heq, vs0, hm, hveq⟩ | ⟨heq, hnm, hveq⟩
        · exact Or.inl ⟨List.mem_cons_of_mem _ hm, hne⟩
        · exact Or.inr (Or.inl ⟨heq, vs0, List.mem_cons_of_mem _ hm, hveq⟩)
        · refine Or.inr (Or.inr ⟨heq, ?_, hveq⟩)
          simp only [List.map_cons, List.mem_cons]
          push_neg
          exact ⟨fun he => hk he.symm, hnm⟩

theorem nodup_keys_tableInsert {κ α : Type} [DecidableEq κ] (k0 : κ) (v : α)
    (t : List (κ × List α)) (h : (t.map Prod.fst).Nodup) :
    ((tableInsert k0 v t).map Prod.fst).Nodup := by
  rw [map_fst_tableInsert]
  split_ifs with hm
  · exact h
  · exact List.Nodup.append h (List.nodup_singleton _) (by simpa using hm)

theorem foldl_tableInsert_induction {κ α : Type} [DecidableEq κ] (key : α → κ)
    (P : List (κ × List α) → Prop)
    (hstep : ∀ t a, P t → P (tableInsert (key a) a t)) :
    ∀ (l : List α) (t : List (κ × List α)), P t →
      P (l.foldl (fun t a => tableInsert (key a) a t) t)
  | [], _, h => h
  | a :: l, t, h =>
    foldl_tableInsert_induction key P hstep l _ (hstep t a h)

theorem nodup_keys_buildTable {κ α : Type} [DecidableEq κ] (key : α → κ)
    (l : List α) : ((buildTable key l).map Prod.fst).Nodup :=
  foldl_tableInsert_induction key (fun t => (t.map Prod.fst).Nodup)
    (fun t a h => nodup_keys_tableInsert (key a) a t h) l [] (by simp)

theorem mem_keys_foldl_tableInsert {κ α : Type} [DecidableEq κ] (key : α → κ) :
    ∀ (l : List α) (t : List (κ × List α)) (k : κ),
      (k ∈ (l.foldl (fun t a => tableInsert (key a) a t) t).map Prod.fst) ↔
        k ∈ t.map Prod.fst ∨ k ∈ l.map key
  | [], t, k => by simp
  | a :: l, t, k => by
    rw [List.foldl_cons, mem_keys_foldl_tableInsert key l _ k, map_fst_tableInsert]
    by_cases hm : key a ∈ t.map Prod.fst
    · simp only [if_pos hm, List.map_cons, List.mem_cons]
      constructor
      · rintro (h | h)
        · exact Or.inl h
        · exact Or.inr (Or.inr h)
      · rintro (h | rfl | h)
        · exact Or.inl h
        · exact Or.inl hm
        · exact Or.inr h
    · simp only [if_neg hm, List.mem_append, List.map_cons, List.mem_cons,
        List.mem_singleton]
      tauto

theorem values_foldl_tableInsert {κ α : Type} [DecidableEq κ] (key : α → κ) :
    ∀ (l : List α) (t : List (κ × List α)), (t.map Prod.fst).Nodup →
      ∀ k vs, (k, vs) ∈ l.foldl (fun t a => tableInsert (key a) a t) t →
        (∃ vs0, (k, vs0) ∈ t ∧ vs = vs0 ++ l.filter (fun a => decide (key a = k)))
        ∨ (k ∉ t.map Prod.fst ∧ vs = l.filter (fun a => decide (key a = k)))
  | [], t, _, k, vs, h => Or.inl ⟨vs, h, by simp⟩
  | a :: l, t, hnd, k, vs, h => by
    rw [List.foldl_cons] at h
    have hsub : ∀ x, x ∈ t.map Prod.fst →
        x ∈ (tableInsert (key a) a t).map Prod.fst := by
      intro x hx
      rw [map_fst_tableInsert]
      split_ifs
      · exact hx
      · exact List.mem_append_left _ hx
    have hka : key a ∈ (tableInsert (key a) a t).map Prod.fst := by
      rw [map_fst_tableInsert]
      split_ifs with hm
      · exact hm
      · exact List.mem_append_right _ (List.mem_singleton_self _)
    rcases values_foldl_tableInsert key l _ (nodup_keys_tableInsert (key a) a t hnd)
        k vs h with ⟨vs1, hm1, hveq⟩ | ⟨hnm, hveq⟩
    · rcases mem_tableInsert_of (key a) a t hnd k vs1 hm1 with
        ⟨hm, hne⟩ | ⟨heq, vs0, hm, hv1⟩ | ⟨heq, hnm0, hv1⟩
      · refine Or.inl ⟨vs1, hm, ?_⟩
        rw [hveq, List.filter_cons, if_neg (by simpa using fun he => hne he.symm)]
      · subst heq
        refine Or.inl ⟨vs0, hm, ?_⟩
        rw [hveq, hv1, List.filter_cons, if_pos (by simp)]
        simp [List.append_assoc]
      · subst heq
        refine Or.inr ⟨hnm0, ?_⟩
        rw [hveq, hv1, List.filter_cons, if_pos (by simp)]
        rfl
    · refine Or.inr ⟨fun hx => hnm (hsub k hx), ?_⟩
      have hne : k ≠ key a := fun he => hnm (he ▸ hka)
      rw [hveq, List.filter_cons, if_neg (by simpa using fun he => hne he.symm)]

theorem values_buildTable {κ α : Type} [DecidableEq κ] (key : α → κ)
    (l : List α) (k : κ) (vs : List α) (h : (k, vs) ∈ buildTable key l) :
    vs = l.filter (fun a => decide (key a = k)) ∧ vs ≠ [] := by
  rcases values_foldl_tableInsert key l [] (by simp) k vs h with
    ⟨vs0, hm, _⟩ | ⟨_, hveq⟩
  · simp at hm
  · refine ⟨hveq, ?_⟩
    have hk : k ∈ (buildTable key l).map Prod.fst :=
      List.mem_map.mpr ⟨(k, vs), h, rfl⟩
    have hml : k ∈ l.map key := by
      have h2 := (mem_keys_foldl_tableInsert key l [] k).mp hk
      simpa using h2
    rcases List.mem_map.mp hml with ⟨a, ha, rfl⟩
    intro hnil
    rw [hveq] at hnil
    have hmem : a ∈ l.filter (fun x => decide (key x = key a)) :=
      List.mem_filter.mpr ⟨ha, by simp⟩
    rw [hnil] at hmem
    exact List.not_mem_nil a hmem

theorem filter_head_eq_find {α : Type} (p : α → Bool) :
    ∀ l : List α, (l.filter p).head? = l.find? p
  | [] => rfl
  | a :: l => by
    cases h : p a <;>
      simp [List.filter_cons, List.find?, h, filter_head_eq_find p l]

theorem headD_append_singleton {α : Type} (vs : List α) (v d : α) (h : vs ≠ []) :
    (vs ++ [v]).headD d = vs.headD d := by
  cases vs
  · exact absurd rfl h
  · rfl

theorem kanjiOutputs_tableInsert (k0 : Str) (v : KanjiEntry) :
    ∀ t : List (Str × List KanjiEntry), k0 ∈ t.map Prod.fst →
      (∀ p ∈ t, p.2 ≠ ([] : List KanjiEntry)) →
      kanjiOutputs (tableInsert k0 v t) = kanjiOutputs t
  | [], hm, _ => by simp at hm
  | (k', vs') :: rest, hm, hne => by
    by_cases hk : k' = k0
    · subst hk
      simp only [tableInsert, eq_self_iff_true, if_true, kanjiOutputs,
        List.map_cons]
      rw [headD_append_singleton vs' v _ (hne _ (List.mem_cons_self _ _))]
    · have hm' : k0 ∈ rest.map Prod.fst := by
        rcases List.mem_cons.mp hm with h | h
        · exact absurd h.symm hk
        · exact h
      simp only [tableInsert, if_neg hk, kanjiOutputs, List.map_cons]
      have ih := kanjiOutputs_tableInsert k0 v rest hm'
        (fun p hp => hne p (List.mem_cons_of_mem _ hp))
      simp only [kanjiOutputs] at ih
      rw [ih]

/-- C10: (1) appending a kanji entry whose character is already indexed
leaves the kanji outputs unchanged (extra entries for the same character are
silently ignored); (2) the kanji table has no duplicate characters and
indexes exactly the characters occurring in the input; (3) every kanji
output is keyed (character, priority 0) and its body is rendered from the
first kanji entry inserted for that character. -/
theorem claim10_kanji_first_only :
    (∀ (l : List KanjiEntry) (e : KanjiEntry),
      e.kanji ∈ (buildKanjiTable l).map Prod.fst →
      kanjiOutputs (buildKanjiTable (l ++ [e])) = kanjiOutputs (buildKanjiTable l))
  ∧ (∀ l : List KanjiEntry,
      ((buildKanjiTable l).map Prod.fst).Nodup
      ∧ ∀ c, c ∈ (buildKanjiTable l).map Prod.fst ↔ c ∈ l.map KanjiEntry.kanji)
  ∧ (∀ (l : List KanjiEntry) (o : KoboEntry),
      o ∈ kanjiOutputs (buildKanjiTable l) →
      ∃ c fe, l.find? (fun x => decide (x.kanji = c)) = some fe
        ∧ o.keys = [(c, 0)]
        ∧ o.definition = str "<hr/>" ++ generate_kanji_entry_text fe) := by
  refine ⟨?_, ?_, ?_⟩
  · intro l e hm
    have hsnoc : buildKanjiTable (l ++ [e]) =
        tableInsert e.kanji e (buildKanjiTable l) := by
      unfold buildKanjiTable buildTable
      rw [List.foldl_append]
      rfl
    rw [hsnoc]
    exact kanjiOutputs_tableInsert e.kanji e (buildKanjiTable l) hm
      (fun p hp => (values_buildTable KanjiEntry.kanji l p.1 p.2 hp).2)
  · intro l
    refine ⟨nodup_keys_buildTable _ l, fun c => ?_⟩
    have h := mem_keys_foldl_tableInsert KanjiEntry.kanji l [] c
    simpa [buildKanjiTable, buildTable] using h
  · intro l o ho
    rcases List.mem_map.mp ho with ⟨⟨c, vs⟩, hm, rfl⟩
    rcases values_buildTable KanjiEntry.kanji l c vs hm with ⟨hfil, hne⟩
    refine ⟨c, vs.headD ⟨[], [], [], []⟩, ?_, rfl, rfl⟩
    rw [← filter_head_eq_find, ← hfil]
    cases vs
    · exact absurd rfl hne
    · rfl

/-- A second kanji entry for the same character 食, ignored by the pipeline:
concrete input for C10. -/
def kanjiFood2 : KanjiEntry := ⟨str "食", [str "meal"], [], []⟩

/-- Witness for C10 at concrete inputs. -/
theorem claim10_kanji_first_only_witness :
    kanjiOutputs (buildKanjiTable [kanjiFood, kanjiFood2]) =
      kanjiOutputs (buildKanjiTable [kanjiFood])
  ∧ ((buildKanjiTable [kanjiFood, kanjiFood2]).map Prod.fst).Nodup := by
  constructor
  · exact claim10_kanji_first_only.1 [kanjiFood] kanjiFood2 (by decide)
  · exact (claim10_kanji_first_only.2.1 [kanjiFood, kanjiFood2]).1
